import Mathlib

/-!
Shallow embedding of `tulip/transys/transys.py`: finite labeled transition
systems, their synchronous (tensor) and asynchronous (interleaving)
products, the in-place merge operator `__add__`, the unimplemented stubs,
and the builders `negation_closure`, `tuple2fts`, `line_labeled_with`,
`cycle_labeled_with`.

The collaborator modules `labeled_graphs`, `mathset`, `automata` and
`executions` are not part of the available source; the definitions that
embed their operations carry a doc comment starting with
`Modelled from the spec:` and follow the specification's words.
-/

/-- An element of an atomic-proposition universe as produced by
`negation_closure`: either a proposition string such as `p` or `!p`,
or the Python constant `True`. -/
inductive APElem where
  | prop (s : String)
  | tru
deriving DecidableEq, Repr

/-- The inner `negate` of `negation_closure`: toggle a leading `!`
(the source tests `x.find('!') == 0`, i.e. whether the first character
is `!`; if so it strips it, otherwise it prepends one). -/
def negate (x : String) : String :=
  match x.data with
  | '!' :: rest => ⟨rest⟩
  | _ => "!" ++ x

/-- Modelled from the spec: the `unique` helper of the missing `mathset`
module, "duplicate-eliminated, order-preserving-first-seen".  `seen`
accumulates elements already emitted. -/
def uniqueAux [DecidableEq α] : List α → List α → List α
  | [], _ => []
  | x :: xs, seen =>
      if x ∈ seen then uniqueAux xs seen else x :: uniqueAux xs (x :: seen)

/-- Modelled from the spec: first-seen order-preserving duplicate
elimination (`mathset.unique`). -/
def unique [DecidableEq α] (l : List α) : List α := uniqueAux l []

/-- `negation_closure(atomic_propositions)` from the source: for each `x`
emit `x` then `negate x`, append the constant `True`, and deduplicate. -/
def negation_closure (atomic_propositions : List String) : List APElem :=
  unique ((atomic_propositions.flatMap
    (fun x => [APElem.prop x, APElem.prop (negate x)])) ++ [APElem.tru])

theorem mem_uniqueAux [DecidableEq α] (l : List α) :
    ∀ (seen : List α) (a : α), a ∈ uniqueAux l seen ↔ a ∈ l ∧ a ∉ seen := by
  induction l with
  | nil => intro seen a; simp [uniqueAux]
  | cons x xs ih =>
      intro seen a
      by_cases hx : x ∈ seen
      · simp only [uniqueAux, if_pos hx, ih, List.mem_cons]
        constructor
        · rintro ⟨h1, h2⟩; exact ⟨Or.inr h1, h2⟩
        · rintro ⟨h1 | h1, h2⟩
          · exact absurd (h1 ▸ hx) h2
          · exact ⟨h1, h2⟩
      · simp only [uniqueAux, if_neg hx, List.mem_cons, ih]
        constructor
        · rintro (rfl | ⟨h1, h2⟩)
          · exact ⟨Or.inl rfl, hx⟩
          · exact ⟨Or.inr h1, fun hc => h2 (Or.inr hc)⟩
        · rintro ⟨h1 | h1, h2⟩
          · exact Or.inl h1
          · by_cases hax : a = x
            · exact Or.inl hax
            · exact Or.inr ⟨h1, fun hc => hc.elim hax h2⟩

theorem nodup_uniqueAux [DecidableEq α] (l : List α) :
    ∀ seen : List α, (uniqueAux l seen).Nodup := by
  induction l with
  | nil => intro seen; simp [uniqueAux]
  | cons x xs ih =>
      intro seen
      by_cases hx : x ∈ seen
      · simpa [uniqueAux, if_pos hx] using ih seen
      · simp only [uniqueAux, if_neg hx]
        refine List.nodup_cons.mpr ⟨?_, ih (x :: seen)⟩
        intro hc
        have := (mem_uniqueAux xs (x :: seen) x).mp hc
        exact this.2 (List.mem_cons_self _ _)

theorem sublist_uniqueAux [DecidableEq α] (l : List α) :
    ∀ seen : List α, (uniqueAux l seen).Sublist l := by
  induction l with
  | nil => intro seen; simp [uniqueAux]
  | cons x xs ih =>
      intro seen
      by_cases hx : x ∈ seen
      · simpa [uniqueAux, if_pos hx] using (ih seen).trans (List.sublist_cons_self _ _)
      · simpa [uniqueAux, if_neg hx] using List.Sublist.cons₂ x (ih (x :: seen))

theorem mem_unique [DecidableEq α] (l : List α) (a : α) :
    a ∈ unique l ↔ a ∈ l := by
  simp [unique, mem_uniqueAux]

theorem nodup_unique [DecidableEq α] (l : List α) : (unique l).Nodup :=
  nodup_uniqueAux l []

theorem sublist_unique [DecidableEq α] (l : List α) : (unique l).Sublist l :=
  sublist_uniqueAux l []

/-- The `FiniteTransitionSystem` entity of the source, shallowly embedded.
State identifiers have type `σ` and actions type `α` (the Python class is
untyped; products pair states and, for the tensor product, actions).
`labels` is an association list in which the most recent labeling of a
state stands first, mirroring overwriting `states.label`; `mutants` is the
per-system mutability flag that products OR-combine. -/
structure FiniteTransitionSystem (σ α : Type) where
  states : List σ
  initial : List σ
  atomic_propositions : Finset APElem
  labels : List (σ × Finset String)
  actions : Finset α
  trans : List (σ × σ × Option α)
  mutants : Bool

/-- Alias mirroring `class FTS(FiniteTransitionSystem)` of the source. -/
abbrev FTS := FiniteTransitionSystem

/-- First-match lookup in the label association list; a state never
labeled has the empty label, matching `L : S -> 2^AP`. -/
def lookupLabel [DecidableEq σ] : List (σ × Finset String) → σ → Finset String
  | [], _ => ∅
  | (k, v) :: rest, s => if s = k then v else lookupLabel rest s

/-- Modelled from the spec: the state-label accessor of the
`labeled_graphs` collaborator (label lookup for one state). -/
def FiniteTransitionSystem.labelOf [DecidableEq σ]
    (T : FTS σ α) (s : σ) : Finset String :=
  lookupLabel T.labels s

/-- `FiniteTransitionSystem(mutable=b)`: the freshly constructed, empty
system (empty AP and action universes, no states, no transitions). -/
def emptyFTS (mutable : Bool) : FTS σ α :=
  { states := [], initial := [], atomic_propositions := ∅,
    labels := [], actions := ∅, trans := [], mutants := mutable }

/-- A state-label value passed to `tuple2fts`: either a bare
atomic-proposition string or a set of atomic propositions. -/
inductive LabelVal where
  | str (s : String)
  | set (l : List String)

/-- Modelled from the spec: `str2singleton` of the `labeled_graphs`
collaborator — a bare label value that is a single atomic-proposition
identifier is treated as a singleton subset. -/
def str2singleton : LabelVal → Finset String
  | .str s => {s}
  | .set l => l.toFinset

/-- Modelled from the spec: prefixing of one state identifier — "a purely
textual transform applied uniformly"; `none` leaves the identifier
unchanged. -/
def prepend_one (pre : Option String) (s : String) : String :=
  match pre with
  | none => s
  | some p => p ++ s

/-- Modelled from the spec: `prepend_with` of the `labeled_graphs`
collaborator — the prefix string is prepended to every state identifier. -/
def prepend_with (l : List String) (pre : Option String) : List String :=
  l.map (prepend_one pre)

/-- One step of the state-labeling loop of `tuple2fts`:
`ts.states.label(prepend(state), str2singleton(ap_label))`. -/
def labelStep (pre : Option String) (acc : FTS String String)
    (sl : String × LabelVal) : FTS String String :=
  { acc with labels := (prepend_one pre sl.1, str2singleton sl.2) :: acc.labels }

/-- One step of the unlabeled-transition loop of `tuple2fts`
(`Act is None`): `ts.transitions.add(from, to)`. -/
def transStepU (pre : Option String) (acc : FTS String String)
    (tr : String × String × Option String) : FTS String String :=
  { acc with trans :=
      acc.trans ++ [(prepend_one pre tr.1, prepend_one pre tr.2.1, none)] }

/-- One step of the labeled-transition loop of `tuple2fts`:
`ts.transitions.add_labeled(from, to, act)`. -/
def transStepL (pre : Option String) (acc : FTS String String)
    (tr : String × String × Option String) : FTS String String :=
  { acc with trans :=
      acc.trans ++ [(prepend_one pre tr.1, prepend_one pre tr.2.1, tr.2.2)] }

/-- `tuple2fts` of the source.  The labeling argument `L` is the bare
positionally-aligned form, auto-zipped with the states (the pairs-vs-bare
dispatch of `pair_labels_with_states` is dynamic-typing dispatch; the
spec's scenarios use the bare form).  Graph insertion (`add_from`,
`initial |=`, `label`, `add`/`add_labeled`) is modelled from the spec:
re-adding an existing state is a no-op, initial states are unioned,
labels overwrite, transitions append.  When `Act` is `none`, transition
entries are used as bare `(from, to)` pairs and added unlabeled. -/
def tuple2fts (S S0 : List String) (AP : List APElem)
    (L : Option (List LabelVal)) (Act : Option (List String))
    (trans : List (String × String × Option String))
    (prepend_str : Option String) : FTS String String :=
  let states := prepend_with S prepend_str
  let initial_states := prepend_with S0 prepend_str
  let base : FTS String String :=
    { states := unique states, initial := unique initial_states,
      atomic_propositions := AP.toFinset, labels := [],
      actions := ∅, trans := [], mutants := false }
  let withLabels :=
    match L with
    | none => base
    | some lab => (S.zip lab).foldl (labelStep prepend_str) base
  match Act with
  | none => trans.foldl (transStepU prepend_str) withLabels
  | some acts =>
      trans.foldl (transStepL prepend_str)
        { withLabels with actions := withLabels.actions ∪ acts.toFinset }

/-- `line_labeled_with(L, m)` of the source: a linear system with states
`s<m>, ..., s<m+n-1>`, labels from `L`, unlabeled chain transitions, AP
universe `negation_closure(L)` and no initial states. -/
def line_labeled_with (L : List String) (m : Nat) : FTS String String :=
  let n := L.length
  let S := (List.range n).map (fun i => toString (m + i))
  let S0 : List String := []
  let AP := negation_closure L
  let from_states := (List.range (n - 1)).map (fun i => toString (m + i))
  let to_states := (List.range (n - 1)).map (fun i => toString (m + 1 + i))
  let trans := (from_states.zip to_states).map
    (fun p => (p.1, p.2, (none : Option String)))
  tuple2fts S S0 AP (some (L.map LabelVal.str)) none trans (some "s")

/-- `cycle_labeled_with(L)` of the source: `line_labeled_with(L)` plus
one unlabeled transition from the last state back to `s0`. -/
def cycle_labeled_with (L : List String) : FTS String String :=
  let ts := line_labeled_with L 0
  let last_state := "s" ++ toString (L.length - 1)
  { ts with trans := ts.trans ++ [(last_state, "s0", none)] }

/-- The labeled edges of a system: transitions that carry an action. -/
def labeledEdges (T : FTS σ α) : List (σ × σ × α) :=
  T.trans.filterMap (fun e =>
    match e.2.2 with
    | some a => some (e.1, e.2.1, a)
    | none => none)

/-- Modelled from the spec: the generic `tensor_product` primitive of the
base graph type (not in the available source).  Following Def. 2.42 the
product states are all pairs, initial pairs are products of initials, the
label of `(s1, s2)` is `label(s1) ∪ label(s2)`, and a transition
`(s1,s2) --(a1,a2)--> (s1',s2')` exists iff `s1 --a1--> s1'` and
`s2 --a2--> s2'`.  The AP and action universes of `prod_sys`, already set
by the caller, are kept. -/
def tensor_product [DecidableEq σ1] [DecidableEq σ2]
    (self : FTS σ1 α1) (ts : FTS σ2 α2)
    (prod_sys : FTS (σ1 × σ2) (α1 × α2)) : FTS (σ1 × σ2) (α1 × α2) :=
  let prodStates := self.states.flatMap (fun a => ts.states.map (fun b => (a, b)))
  { prod_sys with
    states := prodStates,
    initial := self.initial.flatMap (fun a => ts.initial.map (fun b => (a, b))),
    labels := prodStates.map (fun p => (p, self.labelOf p.1 ∪ ts.labelOf p.2)),
    trans := (labeledEdges self).flatMap (fun e1 =>
      (labeledEdges ts).map (fun e2 =>
        ((e1.1, e2.1), (e1.2.1, e2.2.1), some (e1.2.2, e2.2.2)))) }

/-- Modelled from the spec: the generic `cartesian_product` primitive of
the base graph type (not in the available source).  Following Def. 2.18
each step moves exactly one operand: `(s1,s2) --a--> (s1',s2)` for a
`T1`-move with the `T2` component frozen, and symmetrically. -/
def cartesian_product [DecidableEq σ1] [DecidableEq σ2]
    (self : FTS σ1 α) (ts : FTS σ2 α)
    (prod_sys : FTS (σ1 × σ2) α) : FTS (σ1 × σ2) α :=
  let prodStates := self.states.flatMap (fun a => ts.states.map (fun b => (a, b)))
  { prod_sys with
    states := prodStates,
    initial := self.initial.flatMap (fun a => ts.initial.map (fun b => (a, b))),
    labels := prodStates.map (fun p => (p, self.labelOf p.1 ∪ ts.labelOf p.2)),
    trans :=
      self.trans.flatMap (fun e =>
        ts.states.map (fun s2 => ((e.1, s2), (e.2.1, s2), e.2.2)))
      ++ ts.trans.flatMap (fun e =>
        self.states.map (fun s1 => ((s1, e.1), (s1, e.2.1), e.2.2))) }

/-- `FiniteTransitionSystem._sync_prod` of the source: union of AP sets,
Cartesian product of action sets (`self.actions * ts.actions` of the
`mathset` collaborator, modelled from the spec as the set of all pairs),
then the tensor product fills states and transitions. -/
def sync_prod_ts [DecidableEq σ1] [DecidableEq σ2]
    [DecidableEq α1] [DecidableEq α2]
    (self : FTS σ1 α1) (ts : FTS σ2 α2) : FTS (σ1 × σ2) (α1 × α2) :=
  let mutable := self.mutants || ts.mutants
  let prod_ts : FTS (σ1 × σ2) (α1 × α2) := emptyFTS mutable
  let prod_ts := { prod_ts with atomic_propositions :=
    prod_ts.atomic_propositions ∪ (self.atomic_propositions ∪ ts.atomic_propositions) }
  let prod_ts := { prod_ts with actions :=
    prod_ts.actions ∪ (self.actions ×ˢ ts.actions) }
  tensor_product self ts prod_ts

/-- The body of `FiniteTransitionSystem.async_prod` after its type check:
union of AP sets, union of action sets (`self.actions | ts.actions`),
then the Cartesian (interleaving) product fills states and transitions. -/
def async_prod_ts [DecidableEq σ1] [DecidableEq σ2] [DecidableEq α]
    (self : FTS σ1 α) (ts : FTS σ2 α) : FTS (σ1 × σ2) α :=
  let mutable := self.mutants || ts.mutants
  let prod_ts : FTS (σ1 × σ2) α := emptyFTS mutable
  let prod_ts := { prod_ts with atomic_propositions :=
    prod_ts.atomic_propositions ∪ (self.atomic_propositions ∪ ts.atomic_propositions) }
  let prod_ts := { prod_ts with actions :=
    prod_ts.actions ∪ (self.actions ∪ ts.actions) }
  cartesian_product self ts prod_ts

/-- `OpenFiniteTransitionSystem` of the source: the open variant with
separate system and environment action alphabets.  Only its field layout
matters here; the products dispatch on the operand's class. -/
structure OpenFiniteTransitionSystem where
  states : List String
  initial : List String
  atomic_propositions : Finset APElem
  labels : List (String × Finset String)
  sys_actions : Finset String
  env_actions : Finset String
  trans : List (String × String × Option (String × String))
  mutants : Bool

/-- Modelled from the spec: the Büchi-automaton collaborator, "an opaque
object exposing states, an acceptance condition, and a transition
relation" keyed by an input symbol drawn from a proposition-subset
alphabet. -/
structure BuchiAutomaton where
  states : List String
  initial : List String
  accepting : List String
  trans : List (String × Finset String × String)

/-- A possible operand of the product operations, tagging the concrete
Python class (`isinstance` dispatch becomes a match on this tag). -/
inductive SysOrBA where
  | fts (T : FTS String String)
  | ofts (T : OpenFiniteTransitionSystem)
  | ba (A : BuchiAutomaton)

/-- The Python exception classes raised by the embedded methods. -/
inductive PyError where
  | typeError
  | genericError
  | notImplementedError
deriving DecidableEq

/-- Modelled from the spec: `automata._ts_ba_sync_prod` (in the missing
`automata` module).  "The automaton's move is driven by the label of the
transition-system state (the automaton reads `label(s1)` as its input
symbol each step)": a product transition pairs a TS transition
`s1 --a--> s1'` with an automaton transition from `q` whose input symbol
equals `label(s1)`. -/
def ts_ba_sync_prod (T : FTS String String) (A : BuchiAutomaton) :
    FTS (String × String) String :=
  let prodStates := T.states.flatMap (fun s => A.states.map (fun q => (s, q)))
  { states := prodStates,
    initial := T.initial.flatMap (fun s => A.initial.map (fun q => (s, q))),
    atomic_propositions := T.atomic_propositions,
    labels := prodStates.map (fun p => (p, T.labelOf p.1)),
    actions := T.actions,
    trans := T.trans.flatMap (fun e =>
      (A.trans.filter (fun q => q.2.1 = T.labelOf e.1)).map (fun q =>
        ((e.1, q.1), (e.2.1, q.2.2), e.2.2))),
    mutants := T.mutants }

/-- The result of `sync_prod`: a TS-with-TS tensor product or a
TS-with-automaton product, depending on the operand. -/
inductive SyncProdResult where
  | tsProd (T : FTS (String × String) (String × String))
  | baProd (T : FTS (String × String) String)

/-- `FiniteTransitionSystem.sync_prod` of the source: dispatch on the
operand's class; a `FiniteTransitionSystem` goes to `_sync_prod`, a
`BuchiAutomaton` to `automata._ts_ba_sync_prod`, and anything else (for
example an open system) raises `Exception('Argument must be TS or BA.')`. -/
def sync_prod (self : FTS String String) (ts_or_ba : SysOrBA) :
    Except PyError SyncProdResult :=
  match ts_or_ba with
  | .fts ts => .ok (.tsProd (sync_prod_ts self ts))
  | .ba ba => .ok (.baProd (ts_ba_sync_prod self ba))
  | .ofts _ => .error .genericError

/-- `FiniteTransitionSystem.async_prod` of the source: any operand that
is not a `FiniteTransitionSystem` (an automaton, an open system, ...)
raises `TypeError('ts must be a FiniteTransitionSystem.')`. -/
def async_prod (self : FTS String String) (ts : SysOrBA) :
    Except PyError (FTS (String × String) String) :=
  match ts with
  | .fts t => .ok (async_prod_ts self t)
  | .ofts _ => .error .typeError
  | .ba _ => .error .typeError

/-- Modelled from the spec: list union with `MathSet.__ior__` semantics —
existing elements kept in place, new elements of the right operand
appended ("union semantics, matching `|=`"). -/
def listUnion [DecidableEq σ] (a b : List σ) : List σ :=
  a ++ b.filter (fun x => x ∉ a)

/-- One iteration of the state-merging loop of
`FiniteTransitionSystem.__add__` over `other.states.find()`: add the
state if absent, and if its label in `other` is non-empty, overwrite the
label (`if label:` on the label found in `other`; modelled from the spec:
"if the state's label is non-empty, overwrite target's label"). -/
def mergeStep [DecidableEq σ] (other : FTS σ α) (acc : FTS σ α) (st : σ) :
    FTS σ α :=
  let acc1 := if st ∈ acc.states then acc
    else { acc with states := acc.states ++ [st] }
  if other.labelOf st ≠ ∅ then
    { acc1 with labels := (st, other.labelOf st) :: acc1.labels }
  else acc1

/-- The two opening statements of `FiniteTransitionSystem.__add__`:
`self.atomic_propositions |= other.atomic_propositions` and
`self.actions |= other.actions`. -/
def mergeUniverses [DecidableEq α] (self other : FTS σ α) : FTS σ α :=
  { self with
    atomic_propositions := self.atomic_propositions ∪ other.atomic_propositions,
    actions := self.actions ∪ other.actions }

/-- `FiniteTransitionSystem.__add__` of the source, as the value of the
mutated target: union AP sets and action alphabets, merge each of
`other`'s states and non-empty labels, union initial subsets, then append
every transition of `other` (labeled via `add_labeled`, unlabeled via
`add`). -/
def FiniteTransitionSystem.add [DecidableEq σ] [DecidableEq α]
    (self other : FTS σ α) : FTS σ α :=
  let s2 := other.states.foldl (mergeStep other) (mergeUniverses self other)
  { s2 with initial := listUnion s2.initial other.initial,
            trans := s2.trans ++ other.trans }

/-- Modelled from the spec: `copy.copy` at the end of `__add__` is a
shallow copy — a new handle whose every field holds the same value as the
mutated target's. -/
def copyShallow (T : FTS σ α) : FTS σ α :=
  { states := T.states, initial := T.initial,
    atomic_propositions := T.atomic_propositions, labels := T.labels,
    actions := T.actions, trans := T.trans, mutants := T.mutants }

/-- `__add__` with its effect made explicit: the first component is the
target after the in-place mutation, the second the returned handle
(`copy.copy(self)`). -/
def addEffect [DecidableEq σ] [DecidableEq α] (self other : FTS σ α) :
    FTS σ α × FTS σ α :=
  let mutated := FiniteTransitionSystem.add self other
  (mutated, copyShallow mutated)

/-- `FiniteTransitionSystem.intersection`: `raise NotImplementedError`. -/
def FiniteTransitionSystem.intersection (_self : FTS σ α) :
    Except PyError (FTS σ α) :=
  .error .notImplementedError

/-- `FiniteTransitionSystem.difference`: `raise NotImplementedError`. -/
def FiniteTransitionSystem.difference (_self : FTS σ α) :
    Except PyError (FTS σ α) :=
  .error .notImplementedError

/-- `FiniteTransitionSystem.composition`: `raise NotImplementedError`. -/
def FiniteTransitionSystem.composition (_self : FTS σ α) :
    Except PyError (FTS σ α) :=
  .error .notImplementedError

/-- `FiniteTransitionSystem.project`: `raise NotImplementedError`. -/
def FiniteTransitionSystem.project (_self : FTS σ α) (_factor : Option Int) :
    Except PyError (FTS σ α) :=
  .error .notImplementedError

/-- `FiniteTransitionSystem.simulate`: `raise NotImplementedError`. -/
def FiniteTransitionSystem.simulate (_self : FTS σ α)
    (_state_sequence : String) : Except PyError Unit :=
  .error .notImplementedError

/-- Modelled from the spec: `FTSSim` of the missing `executions` module,
used only as the default argument of `is_simulation`. -/
structure FTSSim where
  fields : Unit

/-- `FiniteTransitionSystem.is_simulation`: `raise NotImplementedError`. -/
def FiniteTransitionSystem.is_simulation (_self : FTS σ α)
    (_simulation : FTSSim) : Except PyError Bool :=
  .error .notImplementedError

/-- `FiniteTransitionSystem.sim`: alias to `simulate`. -/
def FiniteTransitionSystem.sim (self : FTS σ α) (state_sequence : String) :
    Except PyError Unit :=
  self.simulate state_sequence

/-- `FiniteTransitionSystem.loadSPINAut`: `raise NotImplementedError`. -/
def FiniteTransitionSystem.loadSPINAut (_self : FTS σ α) :
    Except PyError Unit :=
  .error .notImplementedError

theorem copyShallow_eq (T : FTS σ α) : copyShallow T = T := rfl

theorem foldl_preserve {β γ δ : Type _} (f : γ → δ) (step : γ → β → γ)
    (h : ∀ acc b, f (step acc b) = f acc) :
    ∀ (l : List β) (acc : γ), f (l.foldl step acc) = f acc := by
  intro l
  induction l with
  | nil => intro acc; rfl
  | cons x xs ih => intro acc; rw [List.foldl_cons, ih, h]

theorem labelOf_mergeStep [DecidableEq σ] (other acc : FTS σ α) (st s : σ) :
    (mergeStep other acc st).labelOf s =
      if s = st ∧ other.labelOf st ≠ ∅ then other.labelOf st
      else acc.labelOf s := by
  by_cases h2 : lookupLabel other.labels st = ∅
  · by_cases h1 : st ∈ acc.states <;>
      simp [mergeStep, h1, h2, FiniteTransitionSystem.labelOf]
  · by_cases h1 : st ∈ acc.states <;> by_cases hs : s = st <;>
      simp [mergeStep, h1, h2, hs, FiniteTransitionSystem.labelOf, lookupLabel]

theorem mem_states_mergeStep [DecidableEq σ] (other acc : FTS σ α) (st s : σ) :
    s ∈ (mergeStep other acc st).states ↔ s = st ∨ s ∈ acc.states := by
  by_cases h1 : st ∈ acc.states
  · have hstates : (mergeStep other acc st).states = acc.states := by
      by_cases h2 : lookupLabel other.labels st = ∅ <;>
        simp [mergeStep, h1, h2, FiniteTransitionSystem.labelOf]
    rw [hstates]
    constructor
    · exact Or.inr
    · rintro (rfl | h)
      · exact h1
      · exact h
  · have hstates : (mergeStep other acc st).states = acc.states ++ [st] := by
      by_cases h2 : lookupLabel other.labels st = ∅ <;>
        simp [mergeStep, h1, h2, FiniteTransitionSystem.labelOf]
    rw [hstates, List.mem_append, List.mem_singleton]
    exact or_comm

theorem mergeStep_initial [DecidableEq σ] (other acc : FTS σ α) (st : σ) :
    (mergeStep other acc st).initial = acc.initial := by
  by_cases h1 : st ∈ acc.states <;>
    by_cases h2 : lookupLabel other.labels st = ∅ <;>
    simp [mergeStep, h1, h2, FiniteTransitionSystem.labelOf]

theorem mergeStep_trans [DecidableEq σ] (other acc : FTS σ α) (st : σ) :
    (mergeStep other acc st).trans = acc.trans := by
  by_cases h1 : st ∈ acc.states <;>
    by_cases h2 : lookupLabel other.labels st = ∅ <;>
    simp [mergeStep, h1, h2, FiniteTransitionSystem.labelOf]

theorem mergeStep_ap [DecidableEq σ] (other acc : FTS σ α) (st : σ) :
    (mergeStep other acc st).atomic_propositions = acc.atomic_propositions := by
  by_cases h1 : st ∈ acc.states <;>
    by_cases h2 : lookupLabel other.labels st = ∅ <;>
    simp [mergeStep, h1, h2, FiniteTransitionSystem.labelOf]

theorem mergeStep_actions [DecidableEq σ] (other acc : FTS σ α) (st : σ) :
    (mergeStep other acc st).actions = acc.actions := by
  by_cases h1 : st ∈ acc.states <;>
    by_cases h2 : lookupLabel other.labels st = ∅ <;>
    simp [mergeStep, h1, h2, FiniteTransitionSystem.labelOf]

theorem labelOf_foldl_mergeStep [DecidableEq σ] (other : FTS σ α)
    (ss : List σ) :
    ∀ (acc : FTS σ α) (s : σ),
      (ss.foldl (mergeStep other) acc).labelOf s =
        if s ∈ ss ∧ other.labelOf s ≠ ∅ then other.labelOf s
        else acc.labelOf s := by
  induction ss with
  | nil => intro acc s; simp
  | cons x xs ih =>
      intro acc s
      rw [List.foldl_cons, ih, labelOf_mergeStep]
      by_cases hs : s ∈ xs
      · by_cases hl : other.labelOf s ≠ ∅
        · simp [hs, hl]
        · by_cases hx : s = x
          · subst hx; simp [hs, hl]
          · simp [hs, hl, hx]
      · by_cases hx : s = x
        · subst hx
          by_cases hl : other.labelOf s ≠ ∅ <;> simp [hs, hl]
        · simp [hs, hx]

theorem mem_states_foldl_mergeStep [DecidableEq σ] (other : FTS σ α)
    (ss : List σ) :
    ∀ (acc : FTS σ α) (s : σ),
      s ∈ (ss.foldl (mergeStep other) acc).states ↔
        s ∈ ss ∨ s ∈ acc.states := by
  induction ss with
  | nil => intro acc s; simp
  | cons x xs ih =>
      intro acc s
      rw [List.foldl_cons, ih]
      rw [mem_states_mergeStep]
      simp [List.mem_cons]
      tauto

theorem mem_listUnion [DecidableEq σ] (a b : List σ) (s : σ) :
    s ∈ listUnion a b ↔ s ∈ a ∨ s ∈ b := by
  simp only [listUnion, List.mem_append, List.mem_filter, decide_eq_true_eq]
  constructor
  · rintro (h | ⟨h, _⟩)
    · exact Or.inl h
    · exact Or.inr h
  · rintro (h | h)
    · exact Or.inl h
    · by_cases ha : s ∈ a
      · exact Or.inl ha
      · exact Or.inr ⟨h, ha⟩

theorem tuple2fts_ap (S S0 : List String) (AP : List APElem)
    (L : Option (List LabelVal)) (Act : Option (List String))
    (trans : List (String × String × Option String)) (pre : Option String) :
    (tuple2fts S S0 AP L Act trans pre).atomic_propositions = AP.toFinset := by
  have hU : ∀ acc : FTS String String,
      (trans.foldl (transStepU pre) acc).atomic_propositions =
        acc.atomic_propositions :=
    fun acc => foldl_preserve (fun T : FTS String String => T.atomic_propositions)
      (transStepU pre) (fun a b => rfl) trans acc
  have hL : ∀ acc : FTS String String,
      (trans.foldl (transStepL pre) acc).atomic_propositions =
        acc.atomic_propositions :=
    fun acc => foldl_preserve (fun T : FTS String String => T.atomic_propositions)
      (transStepL pre) (fun a b => rfl) trans acc
  have hLab : ∀ (zs : List (String × LabelVal)) (acc : FTS String String),
      (zs.foldl (labelStep pre) acc).atomic_propositions =
        acc.atomic_propositions :=
    fun zs acc => foldl_preserve (fun T : FTS String String => T.atomic_propositions)
      (labelStep pre) (fun a b => rfl) zs acc
  cases L with
  | none =>
      cases Act with
      | none => exact hU _
      | some acts => exact hL _
  | some lab =>
      cases Act with
      | none => exact (hU _).trans (hLab _ _)
      | some acts => exact (hL _).trans (hLab _ _)

theorem tuple2fts_initial (S S0 : List String) (AP : List APElem)
    (L : Option (List LabelVal)) (Act : Option (List String))
    (trans : List (String × String × Option String)) (pre : Option String) :
    (tuple2fts S S0 AP L Act trans pre).initial =
      unique (prepend_with S0 pre) := by
  have hU : ∀ acc : FTS String String,
      (trans.foldl (transStepU pre) acc).initial = acc.initial :=
    fun acc => foldl_preserve (fun T : FTS String String => T.initial)
      (transStepU pre) (fun a b => rfl) trans acc
  have hL : ∀ acc : FTS String String,
      (trans.foldl (transStepL pre) acc).initial = acc.initial :=
    fun acc => foldl_preserve (fun T : FTS String String => T.initial)
      (transStepL pre) (fun a b => rfl) trans acc
  have hLab : ∀ (zs : List (String × LabelVal)) (acc : FTS String String),
      (zs.foldl (labelStep pre) acc).initial = acc.initial :=
    fun zs acc => foldl_preserve (fun T : FTS String String => T.initial)
      (labelStep pre) (fun a b => rfl) zs acc
  cases L with
  | none =>
      cases Act with
      | none => exact hU _
      | some acts => exact hL _
  | some lab =>
      cases Act with
      | none => exact (hU _).trans (hLab _ _)
      | some acts => exact (hL _).trans (hLab _ _)

theorem prop_mem_negation_closure (aps : List String) (p : String)
    (hp : p ∈ aps) : APElem.prop p ∈ negation_closure aps :=
  (mem_unique _ _).mpr (List.mem_append.mpr (Or.inl
    (List.mem_flatMap.mpr ⟨p, hp, by simp⟩)))

theorem negate_mem_negation_closure (aps : List String) (p : String)
    (hp : p ∈ aps) : APElem.prop (negate p) ∈ negation_closure aps :=
  (mem_unique _ _).mpr (List.mem_append.mpr (Or.inl
    (List.mem_flatMap.mpr ⟨p, hp, by simp⟩)))

theorem tru_mem_negation_closure (aps : List String) :
    APElem.tru ∈ negation_closure aps :=
  (mem_unique _ _).mpr (List.mem_append.mpr (Or.inr (by simp)))

theorem add_labelOf [DecidableEq σ] [DecidableEq α] (target source : FTS σ α)
    (s : σ) :
    (FiniteTransitionSystem.add target source).labelOf s =
      if s ∈ source.states ∧ source.labelOf s ≠ ∅ then source.labelOf s
      else target.labelOf s :=
  labelOf_foldl_mergeStep source source.states (mergeUniverses target source) s

theorem add_mem_states [DecidableEq σ] [DecidableEq α] (target source : FTS σ α)
    (s : σ) :
    s ∈ (FiniteTransitionSystem.add target source).states ↔
      s ∈ source.states ∨ s ∈ target.states :=
  mem_states_foldl_mergeStep source source.states (mergeUniverses target source) s

theorem add_ap [DecidableEq σ] [DecidableEq α] (target source : FTS σ α) :
    (FiniteTransitionSystem.add target source).atomic_propositions =
      target.atomic_propositions ∪ source.atomic_propositions :=
  foldl_preserve (fun T : FTS σ α => T.atomic_propositions) (mergeStep source)
    (fun a b => mergeStep_ap source a b) source.states (mergeUniverses target source)

theorem add_actions [DecidableEq σ] [DecidableEq α] (target source : FTS σ α) :
    (FiniteTransitionSystem.add target source).actions =
      target.actions ∪ source.actions :=
  foldl_preserve (fun T : FTS σ α => T.actions) (mergeStep source)
    (fun a b => mergeStep_actions source a b) source.states (mergeUniverses target source)

theorem add_trans [DecidableEq σ] [DecidableEq α] (target source : FTS σ α) :
    (FiniteTransitionSystem.add target source).trans =
      target.trans ++ source.trans :=
  congrArg (fun l => l ++ source.trans)
    (foldl_preserve (fun T : FTS σ α => T.trans) (mergeStep source)
      (fun a b => mergeStep_trans source a b) source.states
      (mergeUniverses target source))

theorem add_mem_initial [DecidableEq σ] [DecidableEq α] (target source : FTS σ α)
    (s : σ) :
    s ∈ (FiniteTransitionSystem.add target source).initial ↔
      s ∈ target.initial ∨ s ∈ source.initial := by
  have h2 : (source.states.foldl (mergeStep source)
      (mergeUniverses target source)).initial = target.initial :=
    foldl_preserve (fun T : FTS σ α => T.initial) (mergeStep source)
      (fun a b => mergeStep_initial source a b) source.states
      (mergeUniverses target source)
  have h3 : s ∈ (FiniteTransitionSystem.add target source).initial ↔
      s ∈ (source.states.foldl (mergeStep source)
        (mergeUniverses target source)).initial ∨ s ∈ source.initial :=
    mem_listUnion _ _ _
  rw [h2] at h3
  exact h3

/-- Claim C1: for every pair of FiniteTransitionSystem operands with
non-empty action alphabets, the synchronous product has action set equal
to the Cartesian product of the operands' action sets, hence its
cardinality is the product of the operands' action-set cardinalities. -/
theorem claim_C1_sync_prod_actions [DecidableEq σ1] [DecidableEq σ2]
    [DecidableEq α1] [DecidableEq α2]
    (T1 : FTS σ1 α1) (T2 : FTS σ2 α2)
    (h1 : T1.actions.Nonempty) (h2 : T2.actions.Nonempty) :
    (sync_prod_ts T1 T2).actions = T1.actions ×ˢ T2.actions ∧
    (sync_prod_ts T1 T2).actions.card = T1.actions.card * T2.actions.card := by
  have h : (sync_prod_ts T1 T2).actions = ∅ ∪ (T1.actions ×ˢ T2.actions) := rfl
  rw [Finset.empty_union] at h
  exact ⟨h, by rw [h, Finset.card_product]⟩

/-- A concrete closed system with one action, for the C1 witness. -/
def sysOneAction : FTS String String :=
  { states := ["u"], initial := ["u"], atomic_propositions := ∅,
    labels := [], actions := {"a1"}, trans := [], mutants := false }

/-- A concrete closed system with two actions, for the C1 witness. -/
def sysTwoActions : FTS String String :=
  { states := ["v"], initial := ["v"], atomic_propositions := ∅,
    labels := [], actions := {"b1", "b2"}, trans := [], mutants := false }

/-- Witness for C1 at two concrete systems with 1 and 2 actions. -/
theorem claim_C1_sync_prod_actions_witness :
    sysOneAction.actions.Nonempty ∧ sysTwoActions.actions.Nonempty ∧
    ((sync_prod_ts sysOneAction sysTwoActions).actions =
        sysOneAction.actions ×ˢ sysTwoActions.actions ∧
      (sync_prod_ts sysOneAction sysTwoActions).actions.card =
        sysOneAction.actions.card * sysTwoActions.actions.card) :=
  ⟨by decide, by decide,
    claim_C1_sync_prod_actions sysOneAction sysTwoActions (by decide) (by decide)⟩

/-- Claim C2: for every pair of FiniteTransitionSystem operands, the
asynchronous (interleaving) product has action set equal to the union of
the operands' action sets, hence its cardinality is the cardinality of
that union. -/
theorem claim_C2_async_prod_actions [DecidableEq σ1] [DecidableEq σ2]
    [DecidableEq α] (T1 : FTS σ1 α) (T2 : FTS σ2 α) :
    (async_prod_ts T1 T2).actions = T1.actions ∪ T2.actions ∧
    (async_prod_ts T1 T2).actions.card = (T1.actions ∪ T2.actions).card := by
  have h : (async_prod_ts T1 T2).actions = ∅ ∪ (T1.actions ∪ T2.actions) := rfl
  rw [Finset.empty_union] at h
  exact ⟨h, by rw [h]⟩

/-- Claim C3: merging `source` into `target` adds every source state, and
the merged label of a source state is the source's label exactly when that
label is non-empty, otherwise the target's — so on a commonly labeled
state the source (right-hand operand) wins. -/
theorem claim_C3_merge_label_precedence [DecidableEq σ] [DecidableEq α]
    (target source : FTS σ α) (s : σ) (hs : s ∈ source.states) :
    s ∈ (FiniteTransitionSystem.add target source).states ∧
    (FiniteTransitionSystem.add target source).labelOf s =
      (if source.labelOf s ≠ ∅ then source.labelOf s else target.labelOf s) := by
  refine ⟨(add_mem_states target source s).mpr (Or.inl hs), ?_⟩
  rw [add_labelOf]
  simp [hs]

/-- A concrete merge target labeling state `a` with `p`, for the C3
witness. -/
def mergeTargetEx : FTS String String :=
  { states := ["a"], initial := [],
    atomic_propositions := {APElem.prop "p", APElem.prop "q"},
    labels := [("a", {"p"})], actions := ∅, trans := [], mutants := false }

/-- A concrete merge source labeling the common state `a` with `q` and
bringing a new state `b`, for the C3 witness. -/
def mergeSourceEx : FTS String String :=
  { states := ["a", "b"], initial := [],
    atomic_propositions := {APElem.prop "q"},
    labels := [("a", {"q"})], actions := ∅, trans := [], mutants := false }

/-- Witness for C3 at two concrete systems that label the common state
`a` differently. -/
theorem claim_C3_merge_label_precedence_witness :
    "a" ∈ mergeSourceEx.states ∧
    ("a" ∈ (FiniteTransitionSystem.add mergeTargetEx mergeSourceEx).states ∧
      (FiniteTransitionSystem.add mergeTargetEx mergeSourceEx).labelOf "a" =
        (if mergeSourceEx.labelOf "a" ≠ ∅ then mergeSourceEx.labelOf "a"
         else mergeTargetEx.labelOf "a")) :=
  ⟨by decide,
    claim_C3_merge_label_precedence mergeTargetEx mergeSourceEx "a" (by decide)⟩

/-- Claim C4: the asynchronous product applied to an operand that is not
a FiniteTransitionSystem — an automaton or an open system — raises
`TypeError` (a synchronously raised error value, never a product), and the
synchronous product with a mixed open/closed pair raises
`Exception('Argument must be TS or BA.')`; these raise statements embody
the spec's UnsupportedOperationError/TypeMismatchError taxonomy. -/
theorem claim_C4_product_type_errors (self : FTS String String)
    (A : BuchiAutomaton) (O : OpenFiniteTransitionSystem) :
    async_prod self (SysOrBA.ba A) = Except.error PyError.typeError ∧
    async_prod self (SysOrBA.ofts O) = Except.error PyError.typeError ∧
    sync_prod self (SysOrBA.ofts O) = Except.error PyError.genericError :=
  ⟨rfl, rfl, rfl⟩

/-- Claim C5: every call to each deferred operation — `intersection`,
`difference`, `composition`, `project`, `simulate`, `is_simulation` — on
any FiniteTransitionSystem returns the `NotImplementedError` error value
immediately and never an ordinary result. -/
theorem claim_C5_deferred_operations_fail (self : FTS σ α)
    (factor : Option Int) (seq : String) (simu : FTSSim) :
    self.intersection = Except.error PyError.notImplementedError ∧
    self.difference = Except.error PyError.notImplementedError ∧
    self.composition = Except.error PyError.notImplementedError ∧
    self.project factor = Except.error PyError.notImplementedError ∧
    self.simulate seq = Except.error PyError.notImplementedError ∧
    self.is_simulation simu = Except.error PyError.notImplementedError :=
  ⟨rfl, rfl, rfl, rfl, rfl, rfl⟩

/-- Claim C6: `negation_closure` returns a duplicate-free list that is an
order-preserving subsequence of the expansion `[p, negate p, ...] ++
[True]`, contains for every input proposition both it and its
leading-negation toggle together with the constant `True`, and on
`['p','q']` returns exactly `['p','!p','q','!q', True]`. -/
theorem claim_C6_negation_closure (aps : List String) :
    (negation_closure aps).Nodup ∧
    (negation_closure aps).Sublist
      ((aps.flatMap (fun x => [APElem.prop x, APElem.prop (negate x)]))
        ++ [APElem.tru]) ∧
    (∀ p, p ∈ aps → APElem.prop p ∈ negation_closure aps ∧
      APElem.prop (negate p) ∈ negation_closure aps) ∧
    APElem.tru ∈ negation_closure aps ∧
    negation_closure ["p", "q"] =
      [APElem.prop "p", APElem.prop "!p", APElem.prop "q", APElem.prop "!q",
        APElem.tru] :=
  ⟨nodup_unique _, sublist_unique _,
    fun p hp => ⟨prop_mem_negation_closure aps p hp,
      negate_mem_negation_closure aps p hp⟩,
    tru_mem_negation_closure aps, by decide⟩

/-- Witness for C6 at the singleton input `['p']`. -/
theorem claim_C6_negation_closure_witness :
    "p" ∈ (["p"] : List String) ∧
    (APElem.prop "p" ∈ negation_closure ["p"] ∧
      APElem.prop (negate "p") ∈ negation_closure ["p"]) :=
  ⟨by decide, (claim_C6_negation_closure ["p"]).2.2.1 "p" (by decide)⟩

/-- The concrete `tuple2fts` scenario of the spec: states `[0,1]`,
initial `[0]`, AP `['p']`, labeling `[{'p'}, set()]`, actions `['a']`,
transitions `[(0,1,'a')]`, prefix `'x'`. -/
def scenarioTuple2fts : FTS String String :=
  tuple2fts ["0", "1"] ["0"] [APElem.prop "p"]
    (some [LabelVal.set ["p"], LabelVal.set []]) (some ["a"])
    [("0", "1", some "a")] (some "x")

/-- Claim C7: the concrete scenario yields states `x0, x1`, initial set
`x0` only, `x0` labeled with the singleton `p`, `x1` labeled with the
empty set, and exactly one transition `x0 -> x1` labeled `a` — the prefix
is prepended to every state identifier, including initial states and
transition endpoints. -/
theorem claim_C7_tuple2fts_scenario :
    scenarioTuple2fts.states = ["x0", "x1"] ∧
    scenarioTuple2fts.initial = ["x0"] ∧
    scenarioTuple2fts.labelOf "x0" = {"p"} ∧
    scenarioTuple2fts.labelOf "x1" = ∅ ∧
    scenarioTuple2fts.trans = [("x0", "x1", some "a")] := by
  decide

/-- Claim C8: `cycle_labeled_with(L)` is exactly `line_labeled_with(L)`
plus one extra transition from the last state back to the first;
`line_labeled_with` sets no initial states; and for `L = ['p','p','q']`
the cycle has states `s0, s1, s2` labeled `p, p, q` and exactly the
transitions `s0 -> s1, s1 -> s2, s2 -> s0`. -/
theorem claim_C8_cycle_labeled_with (L : List String) (h : L ≠ []) :
    (cycle_labeled_with L).states = (line_labeled_with L 0).states ∧
    (cycle_labeled_with L).labels = (line_labeled_with L 0).labels ∧
    (cycle_labeled_with L).initial = (line_labeled_with L 0).initial ∧
    (cycle_labeled_with L).atomic_propositions =
      (line_labeled_with L 0).atomic_propositions ∧
    (cycle_labeled_with L).trans = (line_labeled_with L 0).trans ++
      [("s" ++ toString (L.length - 1), "s0", none)] ∧
    (line_labeled_with L 0).initial = [] ∧
    (cycle_labeled_with ["p", "p", "q"]).states = ["s0", "s1", "s2"] ∧
    (cycle_labeled_with ["p", "p", "q"]).labelOf "s0" = {"p"} ∧
    (cycle_labeled_with ["p", "p", "q"]).labelOf "s1" = {"p"} ∧
    (cycle_labeled_with ["p", "p", "q"]).labelOf "s2" = {"q"} ∧
    (cycle_labeled_with ["p", "p", "q"]).trans =
      [("s0", "s1", none), ("s1", "s2", none), ("s2", "s0", none)] :=
  ⟨rfl, rfl, rfl, rfl, rfl, tuple2fts_initial _ _ _ _ _ _ _, by decide,
    by decide, by decide, by decide, by decide⟩

/-- Witness for C8 at the non-empty labeling `['p']`. -/
theorem claim_C8_cycle_labeled_with_witness :
    (["p"] : List String) ≠ [] ∧
    (cycle_labeled_with ["p"]).trans = (line_labeled_with ["p"] 0).trans ++
      [("s" ++ toString ((["p"] : List String).length - 1), "s0", none)] :=
  ⟨by decide, (claim_C8_cycle_labeled_with ["p"] (by decide)).2.2.2.2.1⟩

/-- Claim C9: the merge operator's returned handle equals the mutated
target value for value — the target after the call carries the unioned AP
set, action set, states, initial subset, transitions, and per-state labels
drawn from source or target — so callers may not treat the result and the
target as carrying distinct contents. -/
theorem claim_C9_merge_in_place [DecidableEq σ] [DecidableEq α]
    (target source : FTS σ α) :
    (addEffect target source).2 = (addEffect target source).1 ∧
    (addEffect target source).1.atomic_propositions =
      target.atomic_propositions ∪ source.atomic_propositions ∧
    (addEffect target source).1.actions = target.actions ∪ source.actions ∧
    (∀ s, s ∈ (addEffect target source).1.states ↔
      s ∈ target.states ∨ s ∈ source.states) ∧
    (∀ s, s ∈ (addEffect target source).1.initial ↔
      s ∈ target.initial ∨ s ∈ source.initial) ∧
    (addEffect target source).1.trans = target.trans ++ source.trans ∧
    (∀ s, (addEffect target source).1.labelOf s = source.labelOf s ∨
      (addEffect target source).1.labelOf s = target.labelOf s) := by
  refine ⟨copyShallow_eq _, add_ap target source, add_actions target source,
    ?_, fun s => add_mem_initial target source s, add_trans target source, ?_⟩
  · intro s
    rw [show (addEffect target source).1 = FiniteTransitionSystem.add target source from rfl]
    rw [add_mem_states]
    exact or_comm
  · intro s
    rw [show (addEffect target source).1 = FiniteTransitionSystem.add target source from rfl]
    rw [add_labelOf]
    by_cases hc : s ∈ source.states ∧ source.labelOf s ≠ ∅
    · rw [if_pos hc]; exact Or.inl rfl
    · rw [if_neg hc]; exact Or.inr rfl

/-- Claim C10: the AP universe of `line_labeled_with(L)` (and of
`cycle_labeled_with(L)`) is the negation closure of `L`: it contains every
supplied label, each label's negation toggle, and the constant `True`, and
it strictly contains the set of supplied labels. -/
theorem claim_C10_line_ap_negation_closure (L : List String) :
    (line_labeled_with L 0).atomic_propositions =
      (negation_closure L).toFinset ∧
    (cycle_labeled_with L).atomic_propositions =
      (negation_closure L).toFinset ∧
    (∀ p, p ∈ L →
      APElem.prop p ∈ (line_labeled_with L 0).atomic_propositions ∧
      APElem.prop (negate p) ∈ (line_labeled_with L 0).atomic_propositions) ∧
    APElem.tru ∈ (line_labeled_with L 0).atomic_propositions ∧
    (L.map APElem.prop).toFinset ⊂ (line_labeled_with L 0).atomic_propositions := by
  have hap : (line_labeled_with L 0).atomic_propositions =
      (negation_closure L).toFinset :=
    tuple2fts_ap _ _ _ _ _ _ _
  refine ⟨hap, hap, ?_, ?_, ?_⟩
  · intro p hp
    rw [hap]
    exact ⟨List.mem_toFinset.mpr (prop_mem_negation_closure L p hp),
      List.mem_toFinset.mpr (negate_mem_negation_closure L p hp)⟩
  · rw [hap]
    exact List.mem_toFinset.mpr (tru_mem_negation_closure L)
  · rw [hap]
    rw [Finset.ssubset_def]
    constructor
    · intro x hx
      rcases List.mem_map.mp (List.mem_toFinset.mp hx) with ⟨p, hp, rfl⟩
      exact List.mem_toFinset.mpr (prop_mem_negation_closure L p hp)
    · intro hsub
      have htru := hsub (List.mem_toFinset.mpr (tru_mem_negation_closure L))
      rcases List.mem_map.mp (List.mem_toFinset.mp htru) with ⟨p, _, hpe⟩
      exact APElem.noConfusion hpe

/-- Witness for C10 at the labeling `['p']`. -/
theorem claim_C10_line_ap_negation_closure_witness :
    "p" ∈ (["p"] : List String) ∧
    (APElem.prop "p" ∈ (line_labeled_with ["p"] 0).atomic_propositions ∧
      APElem.prop (negate "p") ∈
        (line_labeled_with ["p"] 0).atomic_propositions) :=
  ⟨by decide,
    (claim_C10_line_ap_negation_closure ["p"]).2.2.1 "p" (by decide)⟩
